import Mathlib

/-!
Verification development for the FarmQ repository.

The repository contains two near-duplicate Streamlit scripts,
FarmqDomain/farmq.py and FarmqDomainClassifier/app.py.  The logic under
verification is:

* the snippet summarizers: farmq.py summarize (join all snippets with
  single spaces, split at sentence boundaries, keep the first three
  sentences) and app.py build_summary_from_snippets (additionally drop
  falsy snippets and return a fixed fallback message when the joined text
  is empty or whitespace-only);
* the domain classifier classify_domain (argmax of cosine similarity
  between the question embedding and the category embeddings);
* the CSV augmentation of the AGRI_DOMAINS ordered mapping in app.py
  (Python dict assignment semantics: an existing key keeps its position
  and gets the new value, a new key is appended at the end).

Strings are modelled as their character lists; the Python regex
re.split with pattern lookbehind [.!?] then a whitespace run is modelled
by a direct one-pass scan; machine floats of the embedding model are
idealized as real numbers.
-/

namespace FarmQ

/-- Whitespace class of the regex escape used by the summarizers, ASCII
part: space, tab, newline, carriage return, vertical tab, form feed.
(Non-ASCII Unicode whitespace is not modelled.) -/
def isWs (c : Char) : Bool :=
  c == ' ' || c == '\t' || c == '\n' || c == '\r' || c == '\x0b' || c == '\x0c'

/-- Sentence-ending punctuation characters of the summarizers' split
pattern. -/
def isEnd (c : Char) : Bool := c == '.' || c == '!' || c == '?'

/-- Python str.strip: remove leading and trailing whitespace. -/
def strip (l : List Char) : List Char :=
  ((l.dropWhile isWs).reverse.dropWhile isWs).reverse

/-- Python " ".join: concatenate fragments separated by single spaces. -/
def joinWords : List (List Char) → List Char
  | [] => []
  | [p] => p
  | p :: ps => p ++ ' ' :: joinWords ps

/-- One left-to-right pass implementing the summarizers' re.split: the
text is cut at every maximal whitespace run whose immediately preceding
character is a sentence end (. ! or ?); the whitespace run itself is
consumed.  First argument: whether the scan is currently inside such a
run; second: the piece built so far, reversed. -/
def splitGo : Bool → List Char → List Char → List (List Char)
  | _, acc, [] => [acc.reverse]
  | true, _, c :: rest =>
      if isWs c then splitGo true [] rest else splitGo false [c] rest
  | false, [], c :: rest => splitGo false [c] rest
  | false, p :: acc, c :: rest =>
      if isEnd p && isWs c then (p :: acc).reverse :: splitGo true [] rest
      else splitGo false (c :: p :: acc) rest

/-- re.split of the sentence-boundary pattern over a whole text. -/
def splitSentences (t : List Char) : List (List Char) := splitGo false [] t

/-- farmq.py summarize on character lists: join all snippets (also the
empty ones) with single spaces, split into sentences, keep the first
three, rejoin with single spaces. -/
def summarizeCore (snippets : List (List Char)) : List Char :=
  joinWords ((splitSentences (joinWords snippets)).take 3)

/-- farmq.py summarize. -/
def summarize (snippets : List String) : String :=
  ⟨summarizeCore (snippets.map String.data)⟩

/-- The fixed fallback message of app.py build_summary_from_snippets. -/
def fallbackMessage : String := "No concise summary found. Check links below."

/-- app.py build_summary_from_snippets on character lists: drop falsy
(empty) snippets, join with single spaces; if the joined text strips to
nothing return the fallback message, otherwise rejoin the first three
sentences. -/
def buildSummaryCore (snippets : List (List Char)) : List Char :=
  if strip (joinWords (snippets.filter (fun s => !s.isEmpty))) = [] then
    fallbackMessage.data
  else
    joinWords ((splitSentences (joinWords (snippets.filter (fun s => !s.isEmpty)))).take 3)

/-- app.py build_summary_from_snippets. -/
def build_summary_from_snippets (snippets : List String) : String :=
  ⟨buildSummaryCore (snippets.map String.data)⟩

/-- The summarization algorithm exactly as the specification words it:
discard empty fragments, join the rest with single spaces, split at each
sentence end followed by whitespace, rejoin the first three sentences
with single spaces.  Stated separately so that each source summarizer
can be compared against it. -/
def summarizeSpecAlg (snippets : List String) : String :=
  ⟨joinWords ((splitSentences
      (joinWords ((snippets.map String.data).filter (fun s => !s.isEmpty)))).take 3)⟩

/-- Scanning text from a non-skip state whose current reversed piece is
acc meets no sentence boundary. -/
def noSplit : List Char → List Char → Bool
  | _, [] => true
  | [], c :: rest => noSplit [c] rest
  | p :: acc, c :: rest => !(isEnd p && isWs c) && noSplit (c :: p :: acc) rest

theorem noSplit_append (x : List Char) :
    ∀ (acc : List Char) (y : List Char),
      noSplit acc (x ++ y) = (noSplit acc x && noSplit (x.reverse ++ acc) y) := by
  induction x with
  | nil =>
      intro acc y
      cases acc <;> simp [noSplit]
  | cons c rest ih =>
      intro acc y
      cases acc with
      | nil => simp [noSplit, ih]
      | cons p a =>
          simp only [List.cons_append, noSplit, ih, List.reverse_cons,
            List.append_assoc]
          cases h : isEnd p && isWs c <;> simp [ih]

theorem splitGo_run (t : List Char) :
    ∀ (acc : List Char), noSplit acc t = true →
      ∀ r, splitGo false acc (t ++ r) = splitGo false (t.reverse ++ acc) r := by
  induction t with
  | nil => intro acc _ r; simp
  | cons c rest ih =>
      intro acc h r
      cases acc with
      | nil =>
          simp only [noSplit] at h
          simpa [splitGo, List.append_assoc] using ih [c] h r
      | cons p a =>
          simp only [noSplit, Bool.and_eq_true, Bool.not_eq_true'] at h
          simp only [List.cons_append, splitGo, h.1, Bool.false_eq_true, if_false]
          simpa [List.append_assoc] using ih (c :: p :: a) h.2 r

theorem splitGo_run_nil (t : List Char) (acc : List Char) (h : noSplit acc t = true) :
    splitGo false acc t = [acc.reverse ++ t] := by
  have := splitGo_run t acc h []
  simpa [splitGo] using this

theorem splitGo_ne_nil : ∀ (s : Bool) (acc t : List Char), splitGo s acc t ≠ [] := by
  intro s acc t
  induction t generalizing s acc with
  | nil => simp [splitGo]
  | cons c rest ih =>
      cases s with
      | true => simp only [splitGo]; split <;> apply ih
      | false =>
          cases acc with
          | nil => simpa [splitGo] using ih false [c]
          | cons p a =>
              simp only [splitGo]
              split
              · simp
              · apply ih

theorem splitGo_single (t : List Char) :
    ∀ (acc r : List Char), splitGo false acc t = [r] → r = acc.reverse ++ t := by
  induction t with
  | nil => intro acc r h; simp [splitGo] at h; simp [h]
  | cons c rest ih =>
      intro acc r h
      cases acc with
      | nil =>
          simp only [splitGo] at h
          simpa using ih [c] r h
      | cons p a =>
          simp only [splitGo] at h
          by_cases hb : (isEnd p && isWs c) = true
          · rw [if_pos hb] at h
            have h2 : splitGo true [] rest = [] := by
              have := congrArg List.tail h
              simpa using this
            exact absurd h2 (splitGo_ne_nil true [] rest)
          · rw [if_neg hb] at h
            simpa [List.append_assoc] using ih (c :: p :: a) r h

/-- A piece whose first character, if any, is not whitespace. -/
def startsNonWs (p : List Char) : Prop := ∀ c, p.head? = some c → isWs c = false

/-- A piece ending with a sentence-end character. -/
def endsWithEnd (p : List Char) : Prop := ∃ q e, p = q ++ [e] ∧ isEnd e = true

/-- Invariant of the pieces following the first one in the output of the
sentence split: each scans without an internal boundary and starts with a
non-whitespace character, and each piece but the last ends with sentence
punctuation. -/
def piecesRest : List (List Char) → Prop
  | [] => True
  | [p] => noSplit [] p = true ∧ startsNonWs p
  | p :: ps => (noSplit [] p = true ∧ startsNonWs p ∧ endsWithEnd p) ∧ piecesRest ps

/-- Invariant of the full output of the sentence split. -/
def piecesOk : List (List Char) → Prop
  | [] => False
  | [p] => noSplit [] p = true
  | p :: ps => (noSplit [] p = true ∧ endsWithEnd p) ∧ piecesRest ps

theorem piecesOk_cons_of (p : List Char) (ps : List (List Char))
    (h1 : noSplit [] p = true) (h2 : endsWithEnd p) (h3 : piecesRest ps) :
    piecesOk (p :: ps) := by
  cases ps with
  | nil => exact h1
  | cons q qs => exact ⟨⟨h1, h2⟩, h3⟩

theorem piecesRest_of_piecesOk (p : List Char) (ps : List (List Char))
    (h : piecesOk (p :: ps)) (hs : startsNonWs p) : piecesRest (p :: ps) := by
  cases ps with
  | nil => exact ⟨h, hs⟩
  | cons q qs => exact ⟨⟨h.1.1, hs, h.1.2⟩, h.2⟩

theorem piecesRest_take : ∀ (ps : List (List Char)) (n : Nat),
    piecesRest ps → piecesRest (ps.take n) := by
  intro ps
  induction ps with
  | nil => intro n _; simp [piecesRest]
  | cons p qs ih =>
      intro n h
      cases n with
      | zero => simp [piecesRest]
      | succ m =>
          cases qs with
          | nil => simpa [piecesRest] using h
          | cons q rs =>
              have h1 := h.1
              have h2 := h.2
              simp only [List.take_succ_cons]
              cases hm : (q :: rs).take m with
              | nil => exact ⟨h1.1, h1.2.1⟩
              | cons u us =>
                  have ht := ih m h2
                  rw [hm] at ht
                  exact ⟨h1, ht⟩

theorem piecesOk_take (ps : List (List Char)) (n : Nat) (hn : 0 < n)
    (h : piecesOk ps) : piecesOk (ps.take n) := by
  cases ps with
  | nil => exact absurd h id
  | cons p qs =>
      cases n with
      | zero => exact absurd hn (by simp)
      | succ m =>
          simp only [List.take_succ_cons]
          cases qs with
          | nil => simpa [piecesOk] using h
          | cons q rs =>
              cases hm : (q :: rs).take m with
              | nil => exact h.1.1
              | cons u us =>
                  have ht := piecesRest_take (q :: rs) m h.2
                  rw [hm] at ht
                  exact piecesOk_cons_of _ _ h.1.1 h.1.2 ht

theorem splitGo_sound (t : List Char) :
    (∀ acc : List Char, noSplit [] acc.reverse = true →
        piecesOk (splitGo false acc t) ∧
          ∃ x tl, splitGo false acc t = (acc.reverse ++ x) :: tl) ∧
      piecesRest (splitGo true [] t) := by
  induction t with
  | nil =>
      constructor
      · intro acc hacc
        refine ⟨?_, [], [], by simp [splitGo]⟩
        simpa [splitGo, piecesOk] using hacc
      · exact ⟨rfl, fun c hc => by simp at hc⟩
  | cons c rest ih =>
      have noSplit_one : ∀ d : Char, noSplit [] [d] = true := fun d => rfl
      constructor
      · intro acc hacc
        cases acc with
        | nil =>
            have h := ih.1 [c] (noSplit_one c)
            refine ⟨by simpa [splitGo] using h.1, ?_⟩
            obtain ⟨x, tl, hx⟩ := h.2
            exact ⟨c :: x, tl, by simpa [splitGo] using hx⟩
        | cons p a =>
            by_cases hb : (isEnd p && isWs c) = true
            · have hrest := ih.2
              have hok : piecesOk ((p :: a).reverse :: splitGo true [] rest) := by
                refine piecesOk_cons_of _ _ hacc ?_ hrest
                exact ⟨a.reverse, p, by simp, (Bool.and_eq_true _ _ ▸ hb).1⟩
              constructor
              · simpa [splitGo, hb] using hok
              · exact ⟨[], splitGo true [] rest, by simp [splitGo, hb]⟩
            · have hacc2 : noSplit [] (c :: p :: a).reverse = true := by
                have h1 : (c :: p :: a).reverse = (p :: a).reverse ++ [c] := by simp
                rw [h1, noSplit_append]
                simp only [Bool.and_eq_true]
                refine ⟨hacc, ?_⟩
                simp only [List.reverse_reverse, List.append_nil, noSplit]
                simp [hb]
              have h := ih.1 (c :: p :: a) hacc2
              refine ⟨by simpa [splitGo, hb] using h.1, ?_⟩
              obtain ⟨x, tl, hx⟩ := h.2
              refine ⟨c :: x, tl, ?_⟩
              have h2 : (c :: p :: a).reverse ++ x = (p :: a).reverse ++ c :: x := by
                simp
              rw [← h2]
              simpa [splitGo, hb] using hx
      · by_cases hw : isWs c = true
        · simpa [splitGo, hw] using ih.2
        · have h := ih.1 [c] (noSplit_one c)
          obtain ⟨x, tl, hx⟩ := h.2
          have hok : piecesOk (splitGo false [c] rest) := h.1
          simp only [splitGo, hw, Bool.false_eq_true, if_false]
          rw [hx] at hok ⊢
          refine piecesRest_of_piecesOk _ _ hok ?_
          intro d hd
          have hcd : d = c := by
            simp only [List.reverse_singleton, List.singleton_append,
              List.head?_cons, Option.some.injEq] at hd
            exact hd.symm
          rw [hcd]
          simpa using hw

theorem sentences_ok (t : List Char) : piecesOk (splitSentences t) :=
  ((splitGo_sound t).1 [] rfl).1

theorem splitGo_skip_nonws (c : Char) (r : List Char) (hc : isWs c = false) :
    splitGo true [] (c :: r) = splitGo false [] (c :: r) := by
  simp [splitGo, hc]

theorem split_head_step (p : List Char) (hns : noSplit [] p = true)
    (hee : endsWithEnd p) (w : List Char) :
    splitGo false [] (p ++ ' ' :: w) = p :: splitGo true [] w := by
  obtain ⟨q, e, hpe, he⟩ := hee
  rw [splitGo_run p [] hns (' ' :: w), List.append_nil, hpe, List.reverse_append]
  simp only [List.reverse_singleton, List.singleton_append]
  have hcond : (isEnd e && isWs ' ') = true := by rw [he]; rfl
  show (if (isEnd e && isWs ' ') = true then
      (e :: q.reverse).reverse :: splitGo true [] w
    else splitGo false (' ' :: e :: q.reverse) w) = (q ++ [e]) :: splitGo true [] w
  rw [if_pos hcond]
  simp

theorem resplit_rest : ∀ (ps : List (List Char)), ps ≠ [] → piecesRest ps →
    splitGo true [] (joinWords ps) = ps := by
  intro ps
  induction ps with
  | nil => intro h; exact absurd rfl h
  | cons p qs ih =>
      intro _ h
      cases qs with
      | nil =>
          have h1 := h.1
          have h2 := h.2
          cases p with
          | nil => simp [joinWords, splitGo]
          | cons c t =>
              have hc : isWs c = false := h2 c rfl
              show splitGo true [] (c :: t) = [c :: t]
              rw [splitGo_skip_nonws c t hc]
              simpa using splitGo_run_nil (c :: t) [] h1
      | cons q rs =>
          obtain ⟨⟨h1, h2, h3⟩, hrest⟩ := h
          have hp_ne : p ≠ [] := by
            obtain ⟨w, e, hpe, _⟩ := h3
            rw [hpe]; simp
          cases p with
          | nil => exact absurd rfl hp_ne
          | cons c t =>
              have hc : isWs c = false := h2 c rfl
              show splitGo true [] ((c :: t) ++ ' ' :: joinWords (q :: rs))
                  = (c :: t) :: q :: rs
              rw [List.cons_append, splitGo_skip_nonws c _ hc, ← List.cons_append]
              rw [split_head_step (c :: t) h1 h3 (joinWords (q :: rs))]
              rw [ih (by simp) hrest]

theorem resplit (ps : List (List Char)) (h : piecesOk ps) :
    splitSentences (joinWords ps) = ps := by
  cases ps with
  | nil => exact absurd h id
  | cons p qs =>
      cases qs with
      | nil =>
          have h1 : noSplit [] p = true := h
          simpa [splitSentences, joinWords] using splitGo_run_nil p [] h1
      | cons q rs =>
          obtain ⟨⟨h1, h3⟩, hrest⟩ := h
          show splitGo false [] ((p ++ ' ' :: joinWords (q :: rs))) = p :: q :: rs
          rw [split_head_step p h1 h3 (joinWords (q :: rs))]
          rw [resplit_rest (q :: rs) (by simp) hrest]

theorem all_ws_of_dropWhile (l : List Char)
    (h : ∀ c ∈ l.dropWhile isWs, isWs c = true) : ∀ c ∈ l, isWs c = true := by
  intro c hc
  rw [← List.takeWhile_append_dropWhile (p := isWs) (l := l)] at hc
  rcases List.mem_append.1 hc with h1 | h2
  · exact List.mem_takeWhile_imp h1
  · exact h c h2

theorem strip_eq_nil_iff (l : List Char) :
    strip l = [] ↔ ∀ c ∈ l, isWs c = true := by
  unfold strip
  rw [List.reverse_eq_nil_iff, List.dropWhile_eq_nil_iff]
  constructor
  · intro h
    refine all_ws_of_dropWhile l ?_
    intro c hc
    exact h c (List.mem_reverse.2 hc)
  · intro h c hc
    exact h c ((List.dropWhile_sublist _).subset (List.mem_reverse.1 hc))

theorem isEnd_not_ws (c : Char) (h : isEnd c = true) : isWs c = false := by
  simp only [isEnd, Bool.or_eq_true, beq_iff_eq] at h
  rcases h with (h | h) | h <;> rw [h] <;> rfl

theorem data_ne_nil (s : String) (h : s ≠ "") : s.data ≠ [] := by
  intro hd
  apply h
  cases s with
  | mk d =>
      simp only [String.data] at hd
      rw [hd]

theorem noSplit_of_no_end (t : List Char) :
    ∀ acc : List Char, (∀ c ∈ acc, isEnd c = false) → (∀ c ∈ t, isEnd c = false) →
      noSplit acc t = true := by
  induction t with
  | nil => intro acc _ _; cases acc <;> rfl
  | cons c rest ih =>
      intro acc hacc ht
      cases acc with
      | nil =>
          simp only [noSplit]
          refine ih [c] ?_ ?_
          · intro d hd
            rw [List.mem_singleton.1 hd]
            exact ht c (by simp)
          · intro d hd
            exact ht d (by simp [hd])
      | cons p a =>
          simp only [noSplit, Bool.and_eq_true, Bool.not_eq_true']
          refine ⟨by simp [hacc p (by simp)], ?_⟩
          refine ih (c :: p :: a) ?_ ?_
          · intro d hd
            rcases List.mem_cons.1 hd with h1 | h2
            · rw [h1]; exact ht c (by simp)
            · exact hacc d h2
          · intro d hd
            exact ht d (by simp [hd])

theorem splitSentences_no_end (t : List Char) (h : ∀ c ∈ t, isEnd c = false) :
    splitSentences t = [t] := by
  have := splitGo_run_nil t [] (noSplit_of_no_end t [] (by simp) h)
  simpa [splitSentences] using this

theorem splitGo_head (t : List Char) :
    ∀ acc p tl, splitGo false acc t = p :: tl →
      ∃ u rem, t = u ++ rem ∧ p = acc.reverse ++ u := by
  induction t with
  | nil =>
      intro acc p tl h
      simp only [splitGo] at h
      injection h with h1 _
      exact ⟨[], [], by simp, by simp [← h1]⟩
  | cons c rest ih =>
      intro acc p tl h
      cases acc with
      | nil =>
          simp only [splitGo] at h
          obtain ⟨u, rem, hu, hp⟩ := ih [c] p tl h
          exact ⟨c :: u, rem, by simp [hu], by simpa using hp⟩
      | cons a as =>
          simp only [splitGo] at h
          by_cases hb : (isEnd a && isWs c) = true
          · rw [if_pos hb] at h
            injection h with h1 _
            exact ⟨[], c :: rest, by simp, by simp [← h1]⟩
          · rw [if_neg hb] at h
            obtain ⟨u, rem, hu, hp⟩ := ih (c :: a :: as) p tl h
            exact ⟨c :: u, rem, by simp [hu], by simpa [List.append_assoc] using hp⟩

theorem out_has_nonws (t : List Char) (h : ¬ ∀ c ∈ t, isWs c = true) :
    ¬ ∀ c ∈ joinWords ((splitSentences t).take 3), isWs c = true := by
  cases hps : splitSentences t with
  | nil =>
      have hok := sentences_ok t
      rw [hps] at hok
      exact False.elim hok
  | cons p tl =>
      cases tl with
      | nil =>
          have hpt : p = t := by
            have hone : splitGo false [] t = [p] := by
              simpa [splitSentences] using hps
            simpa using splitGo_single t [] p hone
          simpa [joinWords, hpt] using h
      | cons q rs =>
          have hok := sentences_ok t
          rw [hps] at hok
          obtain ⟨w, e, hpe, he⟩ := hok.1.2
          intro hall
          have he_mem : e ∈ joinWords ((p :: q :: rs).take 3) := by
            have h1 : (p :: q :: rs).take 3 = p :: q :: rs.take 1 := rfl
            rw [h1]
            have hep : e ∈ p := by
              rw [hpe]
              exact List.mem_append_right _ (List.mem_singleton.2 rfl)
            cases rs.take 1 with
            | nil => exact List.mem_append_left _ hep
            | cons u us => exact List.mem_append_left _ hep
          have := hall e he_mem
          rw [isEnd_not_ws e he] at this
          exact Bool.false_ne_true this

theorem summarizeCore_idem (l : List (List Char)) :
    summarizeCore [summarizeCore l] = summarizeCore l := by
  have hok : piecesOk ((splitSentences (joinWords l)).take 3) :=
    piecesOk_take _ 3 (by decide) (sentences_ok (joinWords l))
  show joinWords ((splitSentences (joinWords [summarizeCore l])).take 3) = summarizeCore l
  have h1 : joinWords [summarizeCore l] = summarizeCore l := rfl
  rw [h1]
  show joinWords
      ((splitSentences (joinWords ((splitSentences (joinWords l)).take 3))).take 3)
    = summarizeCore l
  rw [resplit _ hok, List.take_take]
  rfl

theorem buildSummaryCore_idem (l : List (List Char)) :
    buildSummaryCore [buildSummaryCore l] = buildSummaryCore l := by
  by_cases h : strip (joinWords (l.filter fun s => !s.isEmpty)) = []
  · have h1 : buildSummaryCore l = fallbackMessage.data := by
      unfold buildSummaryCore
      rw [if_pos h]
    rw [h1]
    decide
  · have hdef : buildSummaryCore l
        = joinWords ((splitSentences (joinWords (l.filter fun s => !s.isEmpty))).take 3) := by
      unfold buildSummaryCore
      rw [if_neg h]
    have hynws :
        ¬ ∀ c ∈ joinWords
            ((splitSentences (joinWords (l.filter fun s => !s.isEmpty))).take 3),
          isWs c = true := by
      refine out_has_nonws _ ?_
      intro hall
      exact h ((strip_eq_nil_iff _).2 hall)
    rw [hdef]
    have hyne : joinWords
        ((splitSentences (joinWords (l.filter fun s => !s.isEmpty))).take 3) ≠ [] := by
      intro hnil
      apply hynws
      rw [hnil]
      intro c hc
      cases hc
    have hfil : ([joinWords
          ((splitSentences (joinWords (l.filter fun s => !s.isEmpty))).take 3)].filter
        fun s => !s.isEmpty)
        = [joinWords ((splitSentences (joinWords (l.filter fun s => !s.isEmpty))).take 3)] := by
      cases hcase : joinWords
          ((splitSentences (joinWords (l.filter fun s => !s.isEmpty))).take 3) with
      | nil => exact absurd hcase hyne
      | cons a b => rfl
    have hstrip : strip (joinWords
        ((splitSentences (joinWords (l.filter fun s => !s.isEmpty))).take 3)) ≠ [] := by
      intro hs
      exact hynws ((strip_eq_nil_iff _).1 hs)
    unfold buildSummaryCore
    rw [hfil]
    have hjw : joinWords [joinWords
        ((splitSentences (joinWords (l.filter fun s => !s.isEmpty))).take 3)]
        = joinWords ((splitSentences (joinWords (l.filter fun s => !s.isEmpty))).take 3) := rfl
    rw [hjw, if_neg hstrip]
    rw [resplit _ (piecesOk_take _ 3 (by decide)
      (sentences_ok (joinWords (l.filter fun s => !s.isEmpty)))), List.take_take]
    rfl

/-- C1 counterexample: the claim says both summarizers discard empty
fragments, but farmq.py summarize keeps them; on ["", "A."], whose
kept-fragment concatenation "A." is non-empty, it returns " A." with a
leading space while the algorithm worded in the claim returns "A.". -/
theorem summarize_keeps_empty_fragments :
    summarize ["", "A."] = " A." ∧ summarizeSpecAlg ["", "A."] = "A." ∧
      summarize ["", "A."] ≠ summarizeSpecAlg ["", "A."] := by decide

/-- C1 amended: app.py build_summary_from_snippets implements exactly the
claimed algorithm (discard empty fragments, join with single spaces,
split at '.', '!' or '?' followed by whitespace, rejoin the first three
sentences) whenever the kept fragments join to non-whitespace text;
farmq.py summarize applies the same split-and-take-three but joins all
fragments without discarding the empty ones, so it agrees with the
algorithm whenever no fragment is empty; both return the claimed output
on the claim's example. -/
theorem summarizer_first_three_sentences (snippets : List String)
    (hks : strip (joinWords ((snippets.map String.data).filter fun s => !s.isEmpty)) ≠ []) :
    build_summary_from_snippets snippets = summarizeSpecAlg snippets ∧
    ((∀ s ∈ snippets, s ≠ "") → summarize snippets = summarizeSpecAlg snippets) ∧
    summarize ["Soil needs water. It also needs nutrients. Pests are a risk. Weeds too."]
      = "Soil needs water. It also needs nutrients. Pests are a risk." ∧
    build_summary_from_snippets
        ["Soil needs water. It also needs nutrients. Pests are a risk. Weeds too."]
      = "Soil needs water. It also needs nutrients. Pests are a risk." := by
  refine ⟨?_, ?_, by decide, by decide⟩
  · show (⟨buildSummaryCore (snippets.map String.data)⟩ : String) = summarizeSpecAlg snippets
    unfold buildSummaryCore
    rw [if_neg hks]
    rfl
  · intro hne
    have hfil : (snippets.map String.data).filter (fun s => !s.isEmpty)
        = snippets.map String.data := by
      apply List.filter_eq_self.2
      intro a ha
      obtain ⟨s, hs, rfl⟩ := List.mem_map.1 ha
      have hd := data_ne_nil s (hne s hs)
      cases hcd : s.data with
      | nil => exact absurd hcd hd
      | cons x xs => rfl
    show (⟨summarizeCore (snippets.map String.data)⟩ : String) = summarizeSpecAlg snippets
    unfold summarizeSpecAlg summarizeCore
    rw [hfil]

theorem summarizer_first_three_sentences_witness :
    strip (joinWords (((["Water well."] : List String).map String.data).filter
        fun s => !s.isEmpty)) ≠ [] ∧
      build_summary_from_snippets ["Water well."] = summarizeSpecAlg ["Water well."] ∧
      summarize ["Water well."] = summarizeSpecAlg ["Water well."] :=
  ⟨by decide, (summarizer_first_three_sentences ["Water well."] (by decide)).1,
    (summarizer_first_three_sentences ["Water well."] (by decide)).2.1
      (by intro s hs; rw [List.mem_singleton.1 hs]; decide)⟩

/-- C3 counterexample: farmq.py summarize has no fallback branch; on []
it returns the empty string and on ["", "", ""] two spaces, neither the
fixed fallback message that app.py build_summary_from_snippets returns;
so the claim fails for the farmq.py summarizer it also names. -/
theorem summarize_no_fallback :
    summarize [] = "" ∧ summarize ["", "", ""] = "  " ∧
      summarize [] ≠ fallbackMessage ∧ summarize ["", "", ""] ≠ fallbackMessage ∧
      build_summary_from_snippets [] = fallbackMessage ∧
      build_summary_from_snippets ["", "", ""] = fallbackMessage := by decide

/-- C3 amended: app.py build_summary_from_snippets returns the fixed
fallback message on every snippet list whose kept fragments join to an
empty or whitespace-only text, in particular on [] and ["", "", ""];
farmq.py summarize has no fallback and returns the processed text
itself, the empty string on []. -/
theorem build_summary_fallback_on_blank (snippets : List String)
    (h : ∀ c ∈ joinWords ((snippets.map String.data).filter fun s => !s.isEmpty),
        isWs c = true) :
    build_summary_from_snippets snippets = fallbackMessage ∧
    build_summary_from_snippets [] = fallbackMessage ∧
    build_summary_from_snippets ["", "", ""] = fallbackMessage ∧
    summarize [] = "" := by
  refine ⟨?_, by decide, by decide, by decide⟩
  show (⟨buildSummaryCore (snippets.map String.data)⟩ : String) = fallbackMessage
  unfold buildSummaryCore
  rw [if_pos ((strip_eq_nil_iff _).2 h)]

theorem build_summary_fallback_on_blank_witness :
    (∀ c ∈ joinWords (((["", " "] : List String).map String.data).filter
        fun s => !s.isEmpty), isWs c = true) ∧
      build_summary_from_snippets ["", " "] = fallbackMessage :=
  ⟨by decide, (build_summary_fallback_on_blank ["", " "] (by decide)).1⟩

/-- C4: both summarizers are total functions of the snippet list, and a
single non-whitespace snippet with no sentence-ending punctuation is
treated as one sentence and returned unchanged by both, in particular
"No punctuation here". -/
theorem summarizer_single_sentence_total (s : String)
    (h1 : ∀ c ∈ s.data, isEnd c = false) (h2 : strip s.data ≠ []) :
    summarize [s] = s ∧ build_summary_from_snippets [s] = s ∧
    summarize ["No punctuation here"] = "No punctuation here" ∧
    build_summary_from_snippets ["No punctuation here"] = "No punctuation here" := by
  have hsplit : splitSentences s.data = [s.data] := splitSentences_no_end s.data h1
  have hdne : s.data ≠ [] := by
    intro hd
    apply h2
    rw [hd]
    rfl
  refine ⟨?_, ?_, by decide, by decide⟩
  · show (⟨summarizeCore [s.data]⟩ : String) = s
    unfold summarizeCore
    have hj : joinWords [s.data] = s.data := rfl
    rw [hj, hsplit]
    rfl
  · show (⟨buildSummaryCore [s.data]⟩ : String) = s
    unfold buildSummaryCore
    have hfil : ([s.data].filter fun t => !t.isEmpty) = [s.data] := by
      cases hcase : s.data with
      | nil => exact absurd hcase hdne
      | cons a b => rfl
    rw [hfil]
    have hj : joinWords [s.data] = s.data := rfl
    rw [hj, if_neg h2, hsplit]
    rfl

theorem summarizer_single_sentence_total_witness :
    (∀ c ∈ ("hello world" : String).data, isEnd c = false) ∧
      strip ("hello world" : String).data ≠ [] ∧
      summarize ["hello world"] = "hello world" :=
  ⟨by decide, by decide,
    (summarizer_single_sentence_total "hello world" (by decide) (by decide)).1⟩

/-- C6: re-summarizing a summarizer's own output as a single snippet
returns that output unchanged, for both source summarizers and for every
snippet list. -/
theorem summarizer_resummarize_idem (snippets : List String) :
    summarize [summarize snippets] = summarize snippets ∧
    build_summary_from_snippets [build_summary_from_snippets snippets]
      = build_summary_from_snippets snippets := by
  constructor
  · show (⟨summarizeCore ([summarize snippets].map String.data)⟩ : String)
        = (⟨summarizeCore (snippets.map String.data)⟩ : String)
    have h2 : ([summarize snippets].map String.data)
        = [summarizeCore (snippets.map String.data)] := rfl
    rw [h2, summarizeCore_idem]
  · show (⟨buildSummaryCore ([build_summary_from_snippets snippets].map String.data)⟩ : String)
        = (⟨buildSummaryCore (snippets.map String.data)⟩ : String)
    have h2 : ([build_summary_from_snippets snippets].map String.data)
        = [buildSummaryCore (snippets.map String.data)] := rfl
    rw [h2, buildSummaryCore_idem]

/-- The first sentence of the fallback message. -/
def fallbackHead : List Char := "No concise summary found.".data

theorem head_piece_of_eq_fallback (a w : List Char)
    (hee : endsWithEnd a) (hfbk : a ++ ' ' :: w = fallbackMessage.data) :
    a = fallbackHead := by
  obtain ⟨pre, e, hae, he⟩ := hee
  subst hae
  have hfbk2 : pre ++ e :: ' ' :: w = fallbackMessage.data := by
    simpa [List.append_assoc] using hfbk
  have hgete : fallbackMessage.data[pre.length]? = some e := by
    rw [← hfbk2, List.getElem?_append_right (le_refl _)]
    simp
  have hgets : fallbackMessage.data[pre.length + 1]? = some ' ' := by
    rw [← hfbk2, List.getElem?_append_right (by omega : pre.length ≤ pre.length + 1)]
    have h2 : pre.length + 1 - pre.length = 1 := by omega
    rw [h2]
    simp
  have hfl : fallbackMessage.data.length = 44 := by decide
  have hlen : pre.length + 1 < 44 := by
    by_contra hge
    have hnone : fallbackMessage.data[pre.length + 1]? = none :=
      List.getElem?_eq_none (by rw [hfl]; omega)
    rw [hgets] at hnone
    exact Option.some_ne_none _ hnone
  have hkey : ∀ n : Nat, n < 44 →
      ((fallbackMessage.data[n]?).elim false isEnd) = true →
      fallbackMessage.data[n + 1]? = some ' ' → n = 24 := by decide
  have hn : pre.length = 24 := by
    refine hkey pre.length (by omega) ?_ hgets
    rw [hgete]
    simpa using he
  have htake : fallbackMessage.data.take (pre.length + 1) = pre ++ [e] := by
    rw [← hfbk2, List.take_append_eq_append_take]
    have h1 : pre.take (pre.length + 1) = pre := List.take_of_length_le (by omega)
    have h2 : pre.length + 1 - pre.length = 1 := by omega
    rw [h1, h2]
    rfl
  rw [hn] at htake
  have hfh : fallbackMessage.data.take 25 = fallbackHead := by decide
  rw [hfh] at htake
  exact htake.symm

theorem build_core_ne_fallback (J : List Char)
    (hpre : ∀ u, J ≠ fallbackHead ++ u) :
    joinWords ((splitSentences J).take 3) ≠ fallbackMessage.data := by
  intro hy
  have hok : piecesOk ((splitSentences J).take 3) :=
    piecesOk_take _ 3 (by decide) (sentences_ok J)
  cases hq : (splitSentences J).take 3 with
  | nil =>
      rw [hq] at hok
      exact False.elim hok
  | cons q1 qtl =>
      rw [hq] at hy hok
      cases qtl with
      | nil =>
          have hq1 : q1 = fallbackMessage.data := hy
          have hns : noSplit [] q1 = true := hok
          rw [hq1] at hns
          exact absurd hns (by decide)
      | cons q2 qs =>
          have hcat : q1 ++ ' ' :: joinWords (q2 :: qs) = fallbackMessage.data := hy
          have hq1 : q1 = fallbackHead :=
            head_piece_of_eq_fallback q1 _ hok.1.2 hcat
          have hps : ∃ tl2, splitSentences J = q1 :: tl2 := by
            cases hsp : splitSentences J with
            | nil =>
                rw [hsp] at hq
                simp at hq
            | cons r rs =>
                rw [hsp] at hq
                have h3 : (r :: rs).take 3 = r :: rs.take 2 := rfl
                rw [h3] at hq
                injection hq with hqh _
                refine ⟨rs, ?_⟩
                rw [← hqh]
          obtain ⟨tl2, hsp⟩ := hps
          obtain ⟨u, rem, hurem, hq1u⟩ :=
            splitGo_head J [] q1 tl2 (by simpa [splitSentences] using hsp)
          have hJu : J = q1 ++ rem := by
            rw [hurem]
            simp at hq1u
            rw [hq1u]
          exact hpre rem (by rw [← hq1]; exact hJu)

/-- C8 counterexample: on a snippet equal to the fallback text itself the
kept fragments join to non-empty non-whitespace text, yet app.py
build_summary_from_snippets returns exactly the fallback message, so the
output is not distinguishable from the no-content fallback by string
comparison. -/
theorem build_summary_fallback_collision :
    strip (joinWords (((([fallbackMessage] : List String)).map String.data).filter
        fun s => !s.isEmpty)) ≠ [] ∧
      build_summary_from_snippets [fallbackMessage] = fallbackMessage := by decide

/-- C8 amended: whenever the kept fragments join to non-whitespace text
that does not begin with the fallback's first sentence
"No concise summary found.", the output of build_summary_from_snippets
differs from the fallback message; the carve-out is forced because an
input containing the fallback text summarizes to the fallback text
itself. -/
theorem build_summary_ne_fallback (snippets : List String)
    (hks : strip (joinWords ((snippets.map String.data).filter fun s => !s.isEmpty)) ≠ [])
    (hpre : ∀ u, joinWords ((snippets.map String.data).filter fun s => !s.isEmpty)
        ≠ fallbackHead ++ u) :
    build_summary_from_snippets snippets ≠ fallbackMessage := by
  intro heq
  have hdata : buildSummaryCore (snippets.map String.data) = fallbackMessage.data :=
    congrArg String.data heq
  have hout : joinWords ((splitSentences
      (joinWords ((snippets.map String.data).filter fun s => !s.isEmpty))).take 3)
      = fallbackMessage.data := by
    rw [← hdata]
    show _ = buildSummaryCore (snippets.map String.data)
    unfold buildSummaryCore
    rw [if_neg hks]
  exact build_core_ne_fallback _ hpre hout

theorem build_summary_ne_fallback_witness :
    strip (joinWords (((["Use drip irrigation."] : List String).map String.data).filter
        fun s => !s.isEmpty)) ≠ [] ∧
      build_summary_from_snippets ["Use drip irrigation."] ≠ fallbackMessage :=
  ⟨by decide, build_summary_ne_fallback ["Use drip irrigation."] (by decide)
    (by
      intro u hu
      have ht := congrArg (List.take fallbackHead.length) hu
      rw [List.take_left] at ht
      exact absurd ht (by decide))⟩

/-- C9: the summarizers preserve snippet order: the permuted lists
["B.", "A."] and ["A.", "B."] produce different outputs under both
source summarizers. -/
theorem summarizer_order_sensitive :
    summarize ["B.", "A."] ≠ summarize ["A.", "B."] ∧
      build_summary_from_snippets ["B.", "A."]
        ≠ build_summary_from_snippets ["A.", "B."] := by decide


/-- Dot product of two embedding vectors; torch float tensors are
idealized as lists of real numbers. -/
def dot (v w : List ℝ) : ℝ := (List.zipWith (fun a b => a * b) v w).sum

/-- util.cos_sim of sentence_transformers: cosine similarity, the dot
product divided by the product of the Euclidean norms. -/
noncomputable def cos_sim (v w : List ℝ) : ℝ :=
  dot v w / (Real.sqrt (dot v v) * Real.sqrt (dot w w))

/-- torch argmax over a one-dimensional tensor of scores: the index of
the first maximal value (the documented torch tie behaviour); none for
an empty tensor, where the source would raise. -/
noncomputable def argmaxIdx : List ℝ → Option Nat
  | [] => none
  | x :: xs =>
      match argmaxIdx xs with
      | none => some 0
      | some j => if xs.getD j 0 > x then some (j + 1) else some 0

/-- classify_domain of farmq.py and app.py: embed the question with the
same external embedding model used for the category phrases, compute the
cosine similarity against every category embedding, and return the
domain name at the argmax index.  The ordered AGRI_DOMAINS mapping is
passed as an association list, its keys being domain_names and its
values the keyword phrases. -/
noncomputable def classify_domain (embed : String → List ℝ)
    (domains : List (String × String)) (question : String) : Option String :=
  (argmaxIdx ((domains.map (fun d => embed d.2)).map
      (fun e => cos_sim (embed question) e))).map
    (fun i => (domains.map Prod.fst).getD i "")

theorem argmaxIdx_cons (x : ℝ) (xs : List ℝ) :
    argmaxIdx (x :: xs) = match argmaxIdx xs with
      | none => some 0
      | some j => if xs.getD j 0 > x then some (j + 1) else some 0 := rfl

theorem argmaxIdx_spec : ∀ l : List ℝ, l ≠ [] →
    ∃ j, j < l.length ∧ argmaxIdx l = some j ∧
      (∀ k < l.length, l.getD k 0 ≤ l.getD j 0) ∧
      (∀ k < j, l.getD k 0 < l.getD j 0) := by
  intro l
  induction l with
  | nil => intro h; exact absurd rfl h
  | cons x xs ih =>
      intro _
      cases xs with
      | nil =>
          refine ⟨0, by simp, rfl, ?_, by omega⟩
          intro k hk
          cases k with
          | zero => exact le_refl _
          | succ m => simp at hk
      | cons y ys =>
          obtain ⟨j, hj, heq, hmax, hfirst⟩ := ih (by simp)
          by_cases hgt : (y :: ys).getD j 0 > x
          · refine ⟨j + 1, by simpa using hj, ?_, ?_, ?_⟩
            · rw [argmaxIdx_cons, heq]
              show (if (y :: ys).getD j 0 > x then some (j + 1) else some 0) = some (j + 1)
              rw [if_pos hgt]
            · intro k hk
              cases k with
              | zero => simpa using le_of_lt hgt
              | succ m =>
                  simp only [List.getD_cons_succ]
                  exact hmax m (by simpa using hk)
            · intro k hk
              cases k with
              | zero => simpa using hgt
              | succ m =>
                  simp only [List.getD_cons_succ]
                  exact hfirst m (by omega)
          · refine ⟨0, by simp, ?_, ?_, by omega⟩
            · rw [argmaxIdx_cons, heq]
              show (if (y :: ys).getD j 0 > x then some (j + 1) else some 0) = some 0
              rw [if_neg hgt]
            · intro k hk
              cases k with
              | zero => exact le_refl _
              | succ m =>
                  simp only [List.getD_cons_succ, List.getD_cons_zero]
                  exact le_trans (hmax m (by simpa using hk)) (not_lt.1 hgt)

theorem getD_map {β : Type} (f : String × String → β) (dflt : β) :
    ∀ (l : List (String × String)) (k : Nat), k < l.length →
      (l.map f).getD k dflt = f (l.getD k ("", "")) := by
  intro l
  induction l with
  | nil => intro k hk; simp at hk
  | cons a as ih =>
      intro k hk
      cases k with
      | zero => rfl
      | succ m =>
          simp only [List.map_cons, List.getD_cons_succ]
          exact ih m (by simpa using hk)

theorem getD_mem : ∀ (l : List (String × String)) (k : Nat), k < l.length →
    l.getD k ("", "") ∈ l := by
  intro l
  induction l with
  | nil => intro k hk; simp at hk
  | cons a as ih =>
      intro k hk
      cases k with
      | zero => exact List.mem_cons_self _ _
      | succ m => exact List.mem_cons_of_mem _ (ih m (by simpa using hk))

/-- C2: for every embedding function, non-empty ordered category set and
question text, classify_domain returns the label of a category whose
embedding attains the maximum cosine similarity with the question
embedding; in particular the returned label is one of the category
set's keys. -/
theorem classify_domain_returns_best (embed : String → List ℝ)
    (domains : List (String × String)) (question : String) (h : domains ≠ []) :
    ∃ i, i < domains.length ∧
      classify_domain embed domains question = some ((domains.getD i ("", "")).1) ∧
      (domains.getD i ("", "")).1 ∈ domains.map Prod.fst ∧
      ∀ k, k < domains.length →
        cos_sim (embed question) (embed ((domains.getD k ("", "")).2))
          ≤ cos_sim (embed question) (embed ((domains.getD i ("", "")).2)) := by
  have hsims : ((domains.map fun d => embed d.2).map fun e => cos_sim (embed question) e)
      = domains.map fun d => cos_sim (embed question) (embed d.2) := by
    rw [List.map_map]
    rfl
  have hlen : (domains.map fun d => cos_sim (embed question) (embed d.2)).length
      = domains.length := List.length_map _ _
  have hne : (domains.map fun d => cos_sim (embed question) (embed d.2)) ≠ [] := by
    intro h0
    exact h (List.map_eq_nil_iff.1 h0)
  obtain ⟨j, hj, heq, hmax, _⟩ := argmaxIdx_spec _ hne
  rw [hlen] at hj
  refine ⟨j, hj, ?_, ?_, ?_⟩
  · show (argmaxIdx ((domains.map fun d => embed d.2).map
        fun e => cos_sim (embed question) e)).map
        (fun i => (domains.map Prod.fst).getD i "") = _
    rw [hsims, heq, Option.map_some']
    rw [getD_map Prod.fst "" domains j hj]
  · exact List.mem_map_of_mem Prod.fst (getD_mem domains j hj)
  · intro k hk
    have h1 := hmax k (by rw [hlen]; exact hk)
    rw [getD_map _ 0 domains k hk, getD_map _ 0 domains j hj] at h1
    exact h1

/-- C5: classify_domain implements stable argmax semantics: the returned
label sits at the first index attaining the maximal cosine similarity,
every strictly earlier category in insertion order having strictly
smaller similarity, so on ties the earliest tied category wins. -/
theorem classify_domain_stable_argmax (embed : String → List ℝ)
    (domains : List (String × String)) (question : String) (h : domains ≠ []) :
    ∃ i, i < domains.length ∧
      classify_domain embed domains question = some ((domains.getD i ("", "")).1) ∧
      (∀ k, k < domains.length →
        cos_sim (embed question) (embed ((domains.getD k ("", "")).2))
          ≤ cos_sim (embed question) (embed ((domains.getD i ("", "")).2))) ∧
      ∀ k, k < i →
        cos_sim (embed question) (embed ((domains.getD k ("", "")).2))
          < cos_sim (embed question) (embed ((domains.getD i ("", "")).2)) := by
  have hsims : ((domains.map fun d => embed d.2).map fun e => cos_sim (embed question) e)
      = domains.map fun d => cos_sim (embed question) (embed d.2) := by
    rw [List.map_map]
    rfl
  have hlen : (domains.map fun d => cos_sim (embed question) (embed d.2)).length
      = domains.length := List.length_map _ _
  have hne : (domains.map fun d => cos_sim (embed question) (embed d.2)) ≠ [] := by
    intro h0
    exact h (List.map_eq_nil_iff.1 h0)
  obtain ⟨j, hj, heq, hmax, hfirst⟩ := argmaxIdx_spec _ hne
  rw [hlen] at hj
  refine ⟨j, hj, ?_, ?_, ?_⟩
  · show (argmaxIdx ((domains.map fun d => embed d.2).map
        fun e => cos_sim (embed question) e)).map
        (fun i => (domains.map Prod.fst).getD i "") = _
    rw [hsims, heq, Option.map_some']
    rw [getD_map Prod.fst "" domains j hj]
  · intro k hk
    have h1 := hmax k (by rw [hlen]; exact hk)
    rw [getD_map _ 0 domains k hk, getD_map _ 0 domains j hj] at h1
    exact h1
  · intro k hk
    have hk2 : k < domains.length := by omega
    have h1 := hfirst k hk
    rw [getD_map _ 0 domains k hk2, getD_map _ 0 domains j hj] at h1
    exact h1

/-- A one-category set used to instantiate the classifier theorems. -/
def oneDomain : List (String × String) := [("General", "general agriculture")]

/-- Two categories sharing one keyword phrase, so their embeddings tie
under every embedding function. -/
def tiedDomains : List (String × String) := [("Soil", "crops"), ("Pests", "crops")]

/-- A concrete stand-in embedding function. -/
noncomputable def constEmbed : String → List ℝ := fun _ => [1]

theorem classify_domain_returns_best_witness :
    oneDomain ≠ [] ∧
      ∃ i, i < oneDomain.length ∧
        classify_domain constEmbed oneDomain "crop water"
          = some ((oneDomain.getD i ("", "")).1) ∧
        (oneDomain.getD i ("", "")).1 ∈ oneDomain.map Prod.fst ∧
        ∀ k, k < oneDomain.length →
          cos_sim (constEmbed "crop water") (constEmbed ((oneDomain.getD k ("", "")).2))
            ≤ cos_sim (constEmbed "crop water") (constEmbed ((oneDomain.getD i ("", "")).2)) :=
  ⟨by simp [oneDomain],
    classify_domain_returns_best constEmbed oneDomain "crop water" (by simp [oneDomain])⟩

theorem classify_domain_stable_argmax_witness :
    tiedDomains ≠ [] ∧
      ∃ i, i < tiedDomains.length ∧
        classify_domain constEmbed tiedDomains "pests in soil"
          = some ((tiedDomains.getD i ("", "")).1) ∧
        (∀ k, k < tiedDomains.length →
          cos_sim (constEmbed "pests in soil") (constEmbed ((tiedDomains.getD k ("", "")).2))
            ≤ cos_sim (constEmbed "pests in soil")
                (constEmbed ((tiedDomains.getD i ("", "")).2))) ∧
        ∀ k, k < i →
          cos_sim (constEmbed "pests in soil") (constEmbed ((tiedDomains.getD k ("", "")).2))
            < cos_sim (constEmbed "pests in soil")
                (constEmbed ((tiedDomains.getD i ("", "")).2)) :=
  ⟨by simp [tiedDomains],
    classify_domain_stable_argmax constEmbed tiedDomains "pests in soil"
      (by simp [tiedDomains])⟩

/-- Python dict assignment m[k] = v on an ordered mapping represented as
an association list with unique keys: an existing key keeps its position
and receives the new value, a new key is appended at the end. -/
def dictInsert (m : List (String × String)) (k v : String) : List (String × String) :=
  if k ∈ m.map Prod.fst then
    m.map (fun p => if p.1 = k then (k, v) else p)
  else m ++ [(k, v)]

/-- The CSV enrichment loop of app.py: for every CSV row in order,
assign AGRI_DOMAINS[row Domain] := row Keywords. -/
def applyRows (m : List (String × String)) (rows : List (String × String)) :
    List (String × String) :=
  rows.foldl (fun acc r => dictInsert acc r.1 r.2) m

/-- The base AGRI_DOMAINS ordered mapping literal of app.py. -/
def AGRI_DOMAINS : List (String × String) :=
  [("Soil", "soil quality, soil fertility, moisture, nutrients"),
   ("Seed Quality", "seed germination, seed quality, seed planting"),
   ("Irrigation", "water supply, irrigation, drought, flooding"),
   ("Pests", "pest attacks, insects, locusts, pest management"),
   ("Fertilizers", "fertilizer, nutrients, manure, chemical treatment"),
   ("Diseases", "plant diseases, yellow leaves, fungus, infection"),
   ("Weed Management", "weeds, invasive plants, grass, weed removal"),
   ("Ambient Conditions", "weather, temperature, cold, heat, climate"),
   ("General", "general agricultural questions")]

theorem lookup_replace_self (k v : String) :
    ∀ m : List (String × String), k ∈ m.map Prod.fst →
      List.lookup k (m.map (fun p => if p.1 = k then (k, v) else p)) = some v := by
  intro m
  induction m with
  | nil => intro h; simp at h
  | cons a t ih =>
      obtain ⟨a1, a2⟩ := a
      intro h
      by_cases hak : a1 = k
      · simp only [List.map_cons]
        rw [if_pos hak]
        simp [List.lookup]
      · have hmem : k ∈ t.map Prod.fst := by
          simp only [List.map_cons, List.mem_cons] at h
          rcases h with h1 | h2
          · exact absurd h1.symm hak
          · exact h2
        have hne : (k == a1) = false := by
          simp only [beq_eq_false_iff_ne, ne_eq]
          intro hk
          exact hak hk.symm
        simp only [List.map_cons]
        rw [if_neg hak]
        simp only [List.lookup, hne]
        exact ih hmem

theorem lookup_replace_other (k v k' : String) (hkk : k' ≠ k) :
    ∀ m : List (String × String),
      List.lookup k' (m.map (fun p => if p.1 = k then (k, v) else p))
        = List.lookup k' m := by
  intro m
  induction m with
  | nil => rfl
  | cons a t ih =>
      obtain ⟨a1, a2⟩ := a
      by_cases hak : a1 = k
      · have hne : (k' == k) = false := by simpa using hkk
        have hne2 : (k' == a1) = false := by
          simp only [beq_eq_false_iff_ne, ne_eq]
          intro hk
          exact hkk (hk.trans hak)
        simp only [List.map_cons]
        rw [if_pos hak]
        simp only [List.lookup, hne, hne2]
        exact ih
      · simp only [List.map_cons]
        rw [if_neg hak]
        cases hc : k' == a1 with
        | false => simp [List.lookup, hc, ih]
        | true => simp [List.lookup, hc]

theorem lookup_append_right_other (k v k' : String) (hkk : k' ≠ k) :
    ∀ m : List (String × String),
      List.lookup k' (m ++ [(k, v)]) = List.lookup k' m := by
  intro m
  induction m with
  | nil =>
      have hne : (k' == k) = false := by simpa using hkk
      simp [List.lookup, hne]
  | cons a t ih =>
      obtain ⟨a1, a2⟩ := a
      simp only [List.cons_append]
      cases hc : k' == a1 with
      | false => simp [List.lookup, hc, ih]
      | true => simp [List.lookup, hc]

theorem lookup_append_self (k v : String) :
    ∀ m : List (String × String), k ∉ m.map Prod.fst →
      List.lookup k (m ++ [(k, v)]) = some v := by
  intro m
  induction m with
  | nil => simp [List.lookup]
  | cons a t ih =>
      obtain ⟨a1, a2⟩ := a
      intro h
      have hka : (k == a1) = false := by
        simp only [beq_eq_false_iff_ne, ne_eq]
        intro hk
        exact h (by simp [hk])
      simp only [List.cons_append, List.lookup, hka]
      exact ih (fun hmem => h (by simp at hmem ⊢; right; exact hmem))

theorem lookup_dictInsert_self (m : List (String × String)) (k v : String) :
    List.lookup k (dictInsert m k v) = some v := by
  unfold dictInsert
  by_cases h : k ∈ m.map Prod.fst
  · rw [if_pos h]
    exact lookup_replace_self k v m h
  · rw [if_neg h]
    exact lookup_append_self k v m h

theorem lookup_dictInsert_other (m : List (String × String)) (k v k' : String)
    (hkk : k' ≠ k) :
    List.lookup k' (dictInsert m k v) = List.lookup k' m := by
  unfold dictInsert
  by_cases h : k ∈ m.map Prod.fst
  · rw [if_pos h]
    exact lookup_replace_other k v k' hkk m
  · rw [if_neg h]
    exact lookup_append_right_other k v k' hkk m

theorem keys_replace (k v : String) :
    ∀ m : List (String × String),
      (m.map (fun p => if p.1 = k then (k, v) else p)).map Prod.fst
        = m.map Prod.fst := by
  intro m
  induction m with
  | nil => rfl
  | cons a t ih =>
      by_cases hak : a.1 = k
      · simp only [List.map_cons, if_pos hak, ih]
        rw [← hak]
      · simp only [List.map_cons, if_neg hak, ih]

theorem keys_dictInsert_mem (m : List (String × String)) (k v : String)
    (h : k ∈ m.map Prod.fst) :
    (dictInsert m k v).map Prod.fst = m.map Prod.fst := by
  unfold dictInsert
  rw [if_pos h]
  exact keys_replace k v m

theorem dictInsert_new (m : List (String × String)) (k v : String)
    (h : k ∉ m.map Prod.fst) : dictInsert m k v = m ++ [(k, v)] := by
  unfold dictInsert
  rw [if_neg h]

theorem keys_dictInsert_nodup (m : List (String × String)) (k v : String)
    (h : (m.map Prod.fst).Nodup) : ((dictInsert m k v).map Prod.fst).Nodup := by
  by_cases hmem : k ∈ m.map Prod.fst
  · rw [keys_dictInsert_mem m k v hmem]
    exact h
  · rw [dictInsert_new m k v hmem, List.map_append]
    rw [List.nodup_append]
    refine ⟨h, by simp, ?_⟩
    intro a ha hb
    simp only [List.map_cons, List.map_nil, List.mem_singleton] at hb
    rw [hb] at ha
    exact hmem ha

theorem keys_applyRows_nodup :
    ∀ (rows : List (String × String)) (m : List (String × String)),
      (m.map Prod.fst).Nodup → ((applyRows m rows).map Prod.fst).Nodup := by
  intro rows
  induction rows with
  | nil => intro m h; exact h
  | cons r rs ih =>
      intro m h
      exact ih (dictInsert m r.1 r.2) (keys_dictInsert_nodup m r.1 r.2 h)

theorem keys_applyRows_extends :
    ∀ (rows : List (String × String)) (m : List (String × String)),
      ∃ u, (applyRows m rows).map Prod.fst = m.map Prod.fst ++ u := by
  intro rows
  induction rows with
  | nil => intro m; exact ⟨[], by simp [applyRows]⟩
  | cons r rs ih =>
      intro m
      obtain ⟨u, hu⟩ := ih (dictInsert m r.1 r.2)
      have hstep : applyRows m (r :: rs) = applyRows (dictInsert m r.1 r.2) rs := rfl
      by_cases hmem : r.1 ∈ m.map Prod.fst
      · refine ⟨u, ?_⟩
        rw [hstep, hu, keys_dictInsert_mem m r.1 r.2 hmem]
      · refine ⟨r.1 :: u, ?_⟩
        rw [hstep, hu, dictInsert_new m r.1 r.2 hmem, List.map_append]
        simp

theorem applyRows_append_one (m : List (String × String))
    (rows : List (String × String)) (k v : String) :
    applyRows m (rows ++ [(k, v)]) = dictInsert (applyRows m rows) k v := by
  unfold applyRows
  rw [List.foldl_append]
  rfl

theorem lookup_mem (k v : String) :
    ∀ m : List (String × String), List.lookup k m = some v → (k, v) ∈ m := by
  intro m
  induction m with
  | nil => intro h; simp [List.lookup] at h
  | cons a t ih =>
      obtain ⟨a1, a2⟩ := a
      intro h
      cases hc : k == a1 with
      | true =>
          have hk : k = a1 := by simpa using hc
          have hv : a2 = v := by
            simp only [List.lookup, hc] at h
            simpa using h
          rw [hk, ← hv]
          exact List.mem_cons_self _ _
      | false =>
          simp only [List.lookup, hc] at h
          exact List.mem_cons_of_mem _ (ih h)

/-- C7: the CSV augmentation of app.py follows Python dict-update
semantics on the ordered AGRI_DOMAINS mapping: an assigned label maps to
its new phrase while every other label keeps its value, label uniqueness
is preserved, the last CSV row carrying a given label wins, and the
category embedding table derived from the final mapping pairs the
overridden label with the embedding of its final phrase. -/
theorem agri_domains_csv_augmentation (m : List (String × String))
    (rows : List (String × String)) (k v : String)
    (hnd : (m.map Prod.fst).Nodup) :
    List.lookup k (dictInsert m k v) = some v ∧
    (∀ k', k' ≠ k → List.lookup k' (dictInsert m k v) = List.lookup k' m) ∧
    ((applyRows m rows).map Prod.fst).Nodup ∧
    List.lookup k (applyRows m (rows ++ [(k, v)])) = some v ∧
    ∀ embed : String → List ℝ,
      (k, embed v) ∈ (applyRows m (rows ++ [(k, v)])).map
        (fun d => (d.1, embed d.2)) := by
  have hlast : List.lookup k (applyRows m (rows ++ [(k, v)])) = some v := by
    rw [applyRows_append_one]
    exact lookup_dictInsert_self _ k v
  refine ⟨lookup_dictInsert_self m k v,
    fun k' hkk => lookup_dictInsert_other m k v k' hkk,
    keys_applyRows_nodup rows m hnd, hlast, ?_⟩
  intro embed
  have hmem : (k, v) ∈ applyRows m (rows ++ [(k, v)]) := lookup_mem k v _ hlast
  exact List.mem_map_of_mem (fun d => (d.1, embed d.2)) hmem

theorem agri_domains_csv_augmentation_witness :
    ((AGRI_DOMAINS.map Prod.fst).Nodup) ∧
      List.lookup "Soil" (dictInsert AGRI_DOMAINS "Soil" "new keywords")
        = some "new keywords" :=
  ⟨by decide,
    (agri_domains_csv_augmentation AGRI_DOMAINS [] "Soil" "new keywords" (by decide)).1⟩

/-- C10: overriding an existing label keeps the label list, hence
domain_names and the classifier tie-break order, unchanged; a genuinely
new label is appended at the end; after any sequence of CSV rows the
base labels form a prefix of the final label list in their original
order. -/
theorem agri_domains_override_keeps_order (m : List (String × String))
    (rows : List (String × String)) (k v : String) :
    (k ∈ m.map Prod.fst → (dictInsert m k v).map Prod.fst = m.map Prod.fst) ∧
    (k ∉ m.map Prod.fst → dictInsert m k v = m ++ [(k, v)]) ∧
    (∃ u, (applyRows m rows).map Prod.fst = m.map Prod.fst ++ u) ∧
    (k ∈ (applyRows m rows).map Prod.fst →
      (applyRows m (rows ++ [(k, v)])).map Prod.fst
        = (applyRows m rows).map Prod.fst) := by
  refine ⟨keys_dictInsert_mem m k v, dictInsert_new m k v,
    keys_applyRows_extends rows m, ?_⟩
  intro hmem
  rw [applyRows_append_one]
  exact keys_dictInsert_mem _ k v hmem

theorem agri_domains_override_keeps_order_witness :
    ("Soil" ∈ AGRI_DOMAINS.map Prod.fst) ∧
      (dictInsert AGRI_DOMAINS "Soil" "new keywords").map Prod.fst
        = AGRI_DOMAINS.map Prod.fst :=
  ⟨by decide,
    (agri_domains_override_keeps_order AGRI_DOMAINS [] "Soil" "new keywords").1
      (by decide)⟩

end FarmQ
